import Mathlib

/-!
Shallow embedding of the `periodt` layout library.

Two variants ship in the repository:

* the generic pipeline (source file with `periodt<T>`, `sortAndGroupItems`,
  `shuffleGroups`, `buildLayout`, `createRowLayout`, `fillGrid`,
  `compressGrid`): sorting/grouping by a string key, optional Fisher-Yates
  shuffle of the groups, a sqrt-based dimension planner, a stepped-wings
  boolean layout, a column-major fill and a trailing-filler trim;
* the string variant in `mod.ts` with the floor-based planner
  (`total / 5` floored to at least 10 columns, `total / 13` floored to at
  least 3 rows) and a per-column "compress" pass over maximal active runs.

Modelling conventions:

* JavaScript arrays become `List`; the external `Grid` class (described by the
  spec as an opaque addressable `width`-by-`height` array of cells with
  `get`/`set`) is modelled as a list of columns, each a list of cells, and its
  `grid()` row-major view is recovered by `gridRows`;
* the string key together with `localeCompare` becomes a key of an arbitrary
  linearly ordered type `K`; `JSON.stringify` comparison against the default
  value becomes decidable equality with the default value;
* `Math.random` is an injected source `rng : Nat -> Nat`; the draw
  `Math.floor(Math.random() * (i + 1))` becomes `rng i % (i + 1)`;
* all numbers in the pipeline are natural numbers; `Math.round(x)` for the
  planner is `floor(x + 1/2)`, computed exactly on naturals below.
-/

namespace Periodt

/-- Stable insertion used to model `items.slice().sort((a, b) =>
key(a).localeCompare(key(b)))`: the element is placed before the first
element whose key is not smaller, so elements with equal keys keep their
original relative order, as ECMAScript's stable sort does. -/
def insertByKey {T K : Type} [LinearOrder K] (key : T → K) (x : T) : List T → List T
  | [] => [x]
  | y :: ys => if key x ≤ key y then x :: y :: ys else y :: insertByKey key x ys

/-- Stable comparison sort by key, modelling the `sort` call at the start of
`sortAndGroupItems`. -/
def sortByKey {T K : Type} [LinearOrder K] (key : T → K) : List T → List T
  | [] => []
  | x :: xs => insertByKey key x (sortByKey key xs)

/-- One pass of the grouping loop of `sortAndGroupItems`: given the previous
element `x` (already inside the current group) and the remaining sorted items,
return the rest of the group containing `x` together with the later groups.
The loop extends the current group exactly when the next item's key equals the
previous item's key, and starts a new group otherwise. -/
def groupGo {T K : Type} [DecidableEq K] (key : T → K) (x : T) : List T → List T × List (List T)
  | [] => ([x], [])
  | y :: ys =>
    let p := groupGo key y ys
    if key y = key x then (x :: p.1, p.2) else ([x], p.1 :: p.2)

/-- `sortAndGroupItems`: sort the items by key, then group maximal runs of
equal keys.  Empty input yields no groups. -/
def sortAndGroupItems {T K : Type} [LinearOrder K] (key : T → K) (items : List T) :
    List (List T) :=
  match sortByKey key items with
  | [] => []
  | x :: xs =>
    let p := groupGo key x xs
    p.1 :: p.2

/-- Swap the entries at positions `i` and `j` of a list, modelling the
destructuring swap `[groups[i], groups[j]] = [groups[j], groups[i]]`.  Out of
range positions leave the list unchanged (they do not occur in the loop). -/
def swapAt {A : Type} (l : List A) (i j : Nat) : List A :=
  match l[i]?, l[j]? with
  | some a, some b => (l.set i b).set j a
  | _, _ => l

/-- The Fisher-Yates loop of `shuffleGroups`: `for (let i = n - 1; i > 0; i--)`
swap position `i` with position `Math.floor(Math.random() * (i + 1))`.  The
first argument is the loop counter `i`; the loop stops when it reaches `0`. -/
def shuffleGo {A : Type} (rng : Nat → Nat) : Nat → List A → List A
  | 0, gs => gs
  | i + 1, gs => shuffleGo rng i (swapAt gs (i + 1) (rng (i + 1) % (i + 2)))

/-- `shuffleGroups`: shuffle the group order in place, then flatten. -/
def shuffleGroups {T : Type} (rng : Nat → Nat) (groups : List (List T)) : List T :=
  (shuffleGo rng (groups.length - 1) groups).flatten

/-- Integer square root by bounded upward search: raise the candidate while
the next square still fits.  The first argument is fuel, always at least the
root, so the search never runs out. -/
def isqrtGo : Nat → Nat → Nat → Nat
  | 0, _, acc => acc
  | fuel + 1, m, acc =>
    if (acc + 1) * (acc + 1) ≤ m then isqrtGo fuel m (acc + 1) else acc

/-- `isqrt m` is the integer square root `floor(sqrt(m))`. -/
def isqrt (m : Nat) : Nat := isqrtGo m m 0

/-- The sqrt planner's column count `Math.round(Math.sqrt(n * 5))`.
For a natural `m`, `round(sqrt(m)) = floor(sqrt(m) + 1/2)
= floor((2 * sqrt(m) + 1) / 2) = (floor(sqrt(4 * m)) + 1) / 2`, and `sqrt(m)`
is never a half-integer, so no rounding ties arise. -/
def sqrtCols (n : Nat) : Nat := (isqrt (4 * (n * 5)) + 1) / 2

/-- The sqrt planner's row count `Math.round(cols / 3)`:
`round(c / 3) = floor(c / 3 + 1/2) = floor((2 * c + 3) / 6)`, and `c / 3` is
never a half-integer, so no rounding ties arise. -/
def sqrtRows (cols : Nat) : Nat := (2 * cols + 3) / 6

/-- `createRowLayout`: a row of `totalCols` cells, active on the leftmost
`left` and the rightmost `right` positions, where `left` is `leftCount`
truncated to the row width and `right` is `rightCount` truncated to the room
remaining to the right of the left span. -/
def createRowLayout (totalCols leftCount rightCount : Nat) : List Bool :=
  let left := min leftCount totalCols
  let right := min rightCount (totalCols - left)
  (List.range totalCols).map fun c => decide (c < left) || decide (totalCols - right ≤ c)

/-- `buildLayout`: for fewer than 3 rows every cell is active; otherwise the
first three rows are the stepped wings `(2,2)`, `(2,4)`, `(5,5)` and all later
rows are fully active. -/
def buildLayout (numRows totalCols : Nat) : List (List Bool) :=
  if numRows < 3 then
    List.replicate numRows (List.replicate totalCols true)
  else
    createRowLayout totalCols 2 2 :: createRowLayout totalCols 2 4 ::
      createRowLayout totalCols 5 5 ::
        List.replicate (numRows - 3) (List.replicate totalCols true)

/-- `layout[r][c]` with JavaScript's out-of-range access modelled as `false`
(the pipeline only reads in-range positions). -/
def layoutAt (layout : List (List Bool)) (r c : Nat) : Bool :=
  (layout.getD r []).getD c false

/-- The mask restricted to column `c`, listed by row index, as read by the
inner loop of `fillGrid`. -/
def colMask (layout : List (List Bool)) (numRows c : Nat) : List Bool :=
  (List.range numRows).map fun r => layoutAt layout r c

/-- The inner loop of `fillGrid` on one column: walk the rows; an active cell
receives `items[pointer]` and advances the pointer while `pointer` is within
`items`, and the default value afterwards; an inactive cell keeps the default
value the grid was initialised with.  Returns the column together with the
pointer value after the column. -/
def fillCells {T : Type} (items : List T) (dflt : T) : List Bool → Nat → List T × Nat
  | [], ptr => ([], ptr)
  | a :: rest, ptr =>
    if a then
      let v := if ptr < items.length then items.getD ptr dflt else dflt
      let ptr2 := if ptr < items.length then ptr + 1 else ptr
      let p := fillCells items dflt rest ptr2
      (v :: p.1, p.2)
    else
      let p := fillCells items dflt rest ptr
      (dflt :: p.1, p.2)

/-- The outer loop of `fillGrid`: columns in increasing order, threading the
item pointer from one column to the next. -/
def fillColsGo {T : Type} (items : List T) (dflt : T) (layout : List (List Bool))
    (numRows : Nat) : List Nat → Nat → List (List T)
  | [], _ => []
  | c :: cs, ptr =>
    let p := fillCells items dflt (colMask layout numRows c) ptr
    p.1 :: fillColsGo items dflt layout numRows cs p.2

/-- `fillGrid`: the populated grid as a list of `totalCols` columns of
`numRows` cells each, filled in column-major order starting with pointer 0. -/
def fillGrid {T : Type} (items : List T) (layout : List (List Bool))
    (totalCols numRows : Nat) (dflt : T) : List (List T) :=
  fillColsGo items dflt layout numRows (List.range totalCols) 0

/-- The row-major view `grid.grid()` of a column-major grid: row `r` lists the
cell at row `r` of every column. -/
def gridRows {T : Type} (gcols : List (List T)) (numRows : Nat) (dflt : T) : List (List T) :=
  (List.range numRows).map fun r => gcols.map fun col => col.getD r dflt

/-- The trailing-filler count of one row of `compressGrid`: walk from the end
of the row and count cells equal to the default value, stopping at the first
cell that differs (the `JSON.stringify` comparison is modelled as decidable
equality). -/
def trailingFillerCount {T : Type} [DecidableEq T] (dflt : T) (row : List T) : Nat :=
  (row.reverse.takeWhile fun x => decide (x = dflt)).length

/-- The running minimum of `compressGrid`: `lowestCount` starts at `Infinity`
(modelled as `none`) and is lowered by `Math.min` over the per-row counts. -/
def minFrom : Option Nat → List Nat → Option Nat
  | acc, [] => acc
  | acc, c :: cs =>
    minFrom (some (match acc with | none => c | some m => min m c)) cs

/-- `compressGrid`: drop the common number `lowestCount` of trailing cells
from every row, where `lowestCount` is the minimum over the rows of each
row's trailing-filler count.  With no rows the minimum stays `Infinity` and
the row map is over the empty grid, so the grid (empty) is returned as is. -/
def compressGrid {T : Type} [DecidableEq T] (dflt : T) (grid : List (List T)) :
    List (List T) :=
  match minFrom none (grid.map (trailingFillerCount dflt)) with
  | none => grid
  | some low => grid.map fun row => row.take (row.length - low)

/-- The generic `periodt` entry point: group, optionally shuffle the group
order, size the grid with the sqrt planner, build the stepped layout, fill in
column-major order and trim trailing filler columns.  The `silent` logging
flag only controls console output and is omitted; the random source is the
injected `rng`. -/
def periodt {T K : Type} [DecidableEq T] [LinearOrder K] (items : List T) (key : T → K)
    (dflt : T) (random : Bool) (rng : Nat → Nat) : List (List T) :=
  let sortedGroups := sortAndGroupItems key items
  let orderedItems := if random then shuffleGroups rng sortedGroups else sortedGroups.flatten
  let cols := sqrtCols orderedItems.length
  let rows := sqrtRows cols
  let layout := buildLayout rows cols
  let grid := fillGrid orderedItems layout cols rows dflt
  compressGrid dflt (gridRows grid rows dflt)

/-- Number of non-filler cells of a grid: cells that differ from the
default/filler value. -/
def countNonFiller {T : Type} [DecidableEq T] (dflt : T) (grid : List (List T)) : Nat :=
  (grid.map fun row => row.countP fun x => decide (x ≠ dflt)).sum

/-- Number of active cells of a mask row. -/
def activeCount (row : List Bool) : Nat := row.countP fun b => b

/-- Number of active mask cells in column `c`. -/
def colActiveCount (layout : List (List Bool)) (numRows c : Nat) : Nat :=
  activeCount (colMask layout numRows c)

/-- Position of cell `(c, r)` in the column-major scan restricted to active
cells: the number of active cells in earlier columns plus the number of
active cells above row `r` in column `c`. -/
def scanIndex (layout : List (List Bool)) (numRows c r : Nat) : Nat :=
  ((List.range c).map fun i => colActiveCount layout numRows i).sum +
    activeCount ((colMask layout numRows c).take r)

/-- The `mod.ts` planner's column count: `Math.floor(total / 5)`, raised to 10
when below 10. -/
def fracCols (total : Nat) : Nat := if total / 5 < 10 then 10 else total / 5

/-- The `mod.ts` planner's row count: `Math.floor(total / 13)`, raised to 3
when below 3. -/
def fracRows (total : Nat) : Nat := if total / 13 < 3 then 3 else total / 13

/-- The read `grid.get(pos) || " "` of the `mod.ts` compress pass: an empty
string (the only falsy string) is replaced by a blank. -/
def orBlank (s : String) : String := if s = "" then " " else s

/-- The `mod.ts` per-column compress loop on one column, given as the list of
(mask, cell) pairs by increasing row.  An inactive cell is left in place.  At
the start of a maximal active run the loop collects the whole run's cells
top-to-bottom into `segLetters` (through `orBlank`), writes them back
top-to-bottom at the top of the run, and resets any run position past
`segLetters.length` to a blank; it then resumes below the run.  The first
argument is fuel for the recursion, always called with at least the column
length, which the loop never exceeds. -/
def compressColGo : Nat → List (Bool × String) → List String
  | _, [] => []
  | 0, _ :: _ => []
  | fuel + 1, (false, s) :: rest => s :: compressColGo fuel rest
  | fuel + 1, (true, s) :: rest =>
    let seg := (((true, s) :: rest).takeWhile fun p => p.1).map fun p => orBlank p.2
    let segLen := (((true, s) :: rest).takeWhile fun p => p.1).length
    (seg ++ List.replicate (segLen - seg.length) " ") ++
      compressColGo fuel (((true, s) :: rest).dropWhile fun p => p.1)

/-- One column of the `mod.ts` compress pass. -/
def compressCol (l : List (Bool × String)) : List String :=
  compressColGo l.length l

/-- The whole `mod.ts` compress pass: every column is compressed
independently against its mask column. -/
def compressColumns (maskCols : List (List Bool)) (gridCols : List (List String)) :
    List (List String) :=
  (maskCols.zip gridCols).map fun p => compressCol (p.1.zip p.2)

/-! ## Helper lemmas -/

theorem isqrtGo_bounds (fuel : Nat) : ∀ (m acc : Nat), acc * acc ≤ m →
    m < (acc + fuel + 1) * (acc + fuel + 1) →
    isqrtGo fuel m acc * isqrtGo fuel m acc ≤ m ∧
      m < (isqrtGo fuel m acc + 1) * (isqrtGo fuel m acc + 1) := by
  induction fuel with
  | zero =>
    intro m acc h1 h2
    refine ⟨by simpa [isqrtGo] using h1, ?_⟩
    simpa [isqrtGo] using h2
  | succ fuel ih =>
    intro m acc h1 h2
    rw [isqrtGo]
    split
    · refine ih m (acc + 1) (by assumption) ?_
      have he : acc + 1 + fuel + 1 = acc + (fuel + 1) + 1 := by omega
      rw [he]
      exact h2
    · exact ⟨h1, Nat.lt_of_not_le (by assumption)⟩

theorem isqrt_bounds (m : Nat) : isqrt m * isqrt m ≤ m ∧ m < (isqrt m + 1) * (isqrt m + 1) := by
  refine isqrtGo_bounds m m 0 (by simp) ?_
  have h1 : m < m + 1 := Nat.lt_succ_self m
  have h2 : m + 1 ≤ (m + 1) * (m + 1) := Nat.le_mul_of_pos_left _ (by omega)
  calc m < m + 1 := h1
    _ ≤ (m + 1) * (m + 1) := h2
    _ = (0 + m + 1) * (0 + m + 1) := by ring

theorem length_dropWhile_le {A : Type} (p : A → Bool) (l : List A) :
    (l.dropWhile p).length ≤ l.length := by
  induction l with
  | nil => simp [List.dropWhile]
  | cons a t ih =>
    rw [List.dropWhile_cons]
    split
    · exact Nat.le_trans ih (Nat.le_succ _)
    · simp

theorem getD_map_range {A : Type} (f : Nat → A) (n i : Nat) (d : A) (h : i < n) :
    ((List.range n).map f).getD i d = f i := by
  rw [List.getD_eq_getElem?_getD, List.getElem?_map, List.getElem?_range h]
  rfl

theorem getD_range (n i : Nat) (h : i < n) : (List.range n).getD i 0 = i := by
  rw [List.getD_eq_getElem?_getD, List.getElem?_range h]
  rfl

theorem getD_replicate {A : Type} (n i : Nat) (x d : A) (h : i < n) :
    (List.replicate n x).getD i d = x := by
  rw [List.getD_eq_getElem?_getD, List.getElem?_replicate, if_pos h]
  rfl

/-! ## C2: the sqrt dimension planner -/

/-- C2 counterexample: the claim says columns and rows are clamped to a
minimum of 1 including for `N = 0`, but the sqrt planner of the generic
`periodt` contains no clamp at all: for zero items it computes
`columns = round(sqrt(0)) = 0` and `rows = round(0 / 3) = 0`. -/
theorem C2_counterexample : ¬ (1 ≤ sqrtCols 0 ∧ 1 ≤ sqrtRows (sqrtCols 0)) := by
  decide

/-- C2 (amended): for every item count `N` the sqrt planner computes
`columns = round(sqrt(N * 5))` — the unique natural `c` with
`(2c - 1)^2 ≤ 4 * (N * 5) < (2c + 1)^2` — and `rows = round(columns / 3)` —
the unique natural `r` with `6r - 3 ≤ 2 * columns < 6r + 3`; there is no
clamping to a minimum of 1, and for `N = 0` both columns and rows are 0. -/
theorem C2_sqrt_planner :
    (∀ n : Nat,
      (2 * sqrtCols n - 1) * (2 * sqrtCols n - 1) ≤ 20 * n ∧
      20 * n < (2 * sqrtCols n + 1) * (2 * sqrtCols n + 1) ∧
      6 * sqrtRows (sqrtCols n) ≤ 2 * sqrtCols n + 3 ∧
      2 * sqrtCols n < 6 * sqrtRows (sqrtCols n) + 3) ∧
    sqrtCols 0 = 0 ∧ sqrtRows (sqrtCols 0) = 0 := by
  refine ⟨fun n => ?_, by decide, by decide⟩
  have hm : 4 * (n * 5) = 20 * n := by ring
  rw [← hm]
  have hb := isqrt_bounds (4 * (n * 5))
  set s := isqrt (4 * (n * 5)) with hs
  have hcols : sqrtCols n = (s + 1) / 2 := by rw [sqrtCols]
  have hdiv := Nat.div_add_mod (s + 1) 2
  have hmod : (s + 1) % 2 < 2 := Nat.mod_lt _ (by omega)
  have hrows := Nat.div_add_mod (2 * sqrtCols n + 3) 6
  have hrmod : (2 * sqrtCols n + 3) % 6 < 6 := Nat.mod_lt _ (by omega)
  have hrdef : sqrtRows (sqrtCols n) = (2 * sqrtCols n + 3) / 6 := by rw [sqrtRows]
  refine ⟨?_, ?_, by omega, by omega⟩
  · have hcase : (s + 1) % 2 = 0 ∨ (s + 1) % 2 = 1 := by omega
    rcases hcase with h0 | h1
    · have hse : s = 2 * sqrtCols n - 1 := by omega
      rw [← hse]
      exact hb.1
    · have hse : s = 2 * sqrtCols n := by omega
      have hle : (2 * sqrtCols n - 1) * (2 * sqrtCols n - 1) ≤ s * s := by
        rw [hse]
        exact Nat.mul_le_mul (by omega) (by omega)
      exact Nat.le_trans hle hb.1
  · have hcase : (s + 1) % 2 = 0 ∨ (s + 1) % 2 = 1 := by omega
    rcases hcase with h0 | h1
    · have hse : s + 1 = 2 * sqrtCols n := by omega
      have hlt : 4 * (n * 5) < (s + 1) * (s + 1) := hb.2
      rw [hse] at hlt
      exact Nat.lt_of_lt_of_le hlt (Nat.mul_le_mul (by omega) (by omega))
    · have hse : s + 1 = 2 * sqrtCols n + 1 := by omega
      have hlt : 4 * (n * 5) < (s + 1) * (s + 1) := hb.2
      rw [hse] at hlt
      exact hlt

/-! ## C9: the fraction-with-floor dimension planner -/

/-- C9: the `mod.ts` planner computes `columns = max(10, floor(N / 5))` and
`rows = max(3, floor(N / 13))`; in particular 3 items yield a 10-column,
3-row grid. -/
theorem C9_fraction_planner :
    (∀ n : Nat, fracCols n = max 10 (n / 5) ∧ fracRows n = max 3 (n / 13)) ∧
    fracCols 3 = 10 ∧ fracRows 3 = 3 := by
  refine ⟨fun n => ⟨?_, ?_⟩, by decide, by decide⟩
  · rw [fracCols]
    split <;> omega
  · rw [fracRows]
    split <;> omega

/-! ## C7: determinism without randomization -/

/-- C7: with `random = false` the random source is never consulted, so two
calls of `periodt` on the same items, key function and default value return
the same grid whatever random sources are supplied. -/
theorem C7_deterministic {T K : Type} [DecidableEq T] [LinearOrder K] (items : List T)
    (key : T → K) (dflt : T) (rng1 rng2 : Nat → Nat) :
    periodt items key dflt false rng1 = periodt items key dflt false rng2 := rfl

/-! ## C1: conservation of the item count -/

/-- C1 (code bug): conservation fails.  For 21 items sharing one grouping key
the sqrt planner yields 10 columns and 3 rows, whose stepped mask has only
`4 + 6 + 10 = 20` active cells, so `fillGrid` silently drops the last item:
the returned grid holds 20 non-filler cells for 21 input items. -/
theorem C1_conservation_failure :
    ((List.range 21).map fun i => i + 1).length = 21 ∧
    countNonFiller 0
      (periodt ((List.range 21).map fun i => i + 1) (fun _ => (0 : Nat)) 0 false
        fun _ => 0) = 20 := by
  decide

/-! ## C3 and C10: the `mod.ts` per-column compress pass -/

theorem compressColGo_eq (fuel : Nat) : ∀ l : List (Bool × String), l.length ≤ fuel →
    compressColGo fuel l = l.map fun p => if p.1 then orBlank p.2 else p.2 := by
  induction fuel with
  | zero =>
    intro l hl
    have : l = [] := List.length_eq_zero.mp (Nat.le_zero.mp hl)
    subst this
    rfl
  | succ fuel ih =>
    intro l hl
    match l with
    | [] => rfl
    | (false, s) :: rest =>
      rw [compressColGo, List.map_cons, ih rest (by simpa using hl)]
      rfl
    | (true, s) :: rest =>
      rw [compressColGo]
      have htw : List.takeWhile (fun p => p.1) ((true, s) :: rest) =
          (true, s) :: List.takeWhile (fun p => p.1) rest := by
        simp [List.takeWhile_cons]
      have hdw : List.dropWhile (fun p => p.1) ((true, s) :: rest) =
          List.dropWhile (fun p => p.1) rest := by
        simp [List.dropWhile_cons]
      have hlen : (List.dropWhile (fun p => p.1) ((true, s) :: rest)).length ≤ fuel := by
        rw [hdw]
        exact Nat.le_trans (length_dropWhile_le _ rest) (by simpa using hl)
      rw [ih _ hlen]
      simp only [List.length_map, Nat.sub_self, List.replicate_zero, List.append_nil]
      have hsplit : ((true, s) :: rest).map (fun p => if p.1 then orBlank p.2 else p.2) =
          (List.takeWhile (fun p => p.1) ((true, s) :: rest)).map
              (fun p => if p.1 then orBlank p.2 else p.2) ++
            (List.dropWhile (fun p => p.1) ((true, s) :: rest)).map
              (fun p => if p.1 then orBlank p.2 else p.2) := by
        rw [← List.map_append, List.takeWhile_append_dropWhile]
      rw [hsplit]
      congr 1
      apply List.map_congr_left
      intro p hp
      have : p.1 = true := List.mem_takeWhile_imp hp
      rw [if_pos this]

theorem compressCol_eq_map (l : List (Bool × String)) :
    compressCol l = l.map fun p => if p.1 then orBlank p.2 else p.2 :=
  compressColGo_eq l.length l (Nat.le_refl _)

/-- C3 counterexample: within a single maximal active run `[" ", "A"]` (a
filler gap above a real value) the `mod.ts` compress pass collects and
rewrites the blank as well as the letter, so the output still has the filler
above the letter: the gap is not removed and the claimed no-filler-above-
content property fails. -/
theorem C3_counterexample :
    compressCol [(true, " "), (true, "A")] = [" ", "A"] ∧ (" " : String) ≠ "A" := by
  decide

/-- C3 (amended): within each maximal run of mask-active cells the compactor
collects every current cell value — filler included, because the collection
reads `grid.get(pos) || " "` which keeps non-empty blanks — and writes them
back unchanged to the same positions, so the collected count always equals
the run length and the reset-to-filler loop covers no position.  Hence the
pass maps every active cell through `orBlank` and leaves inactive cells in
place; it performs no gap removal and no reordering. -/
theorem C3_compactor_rewrites_all (l : List (Bool × String)) :
    compressCol l = l.map fun p => if p.1 then orBlank p.2 else p.2 :=
  compressCol_eq_map l

/-- C10: on any grid whose cells are all non-empty strings (so `orBlank` is
the identity on them), the per-column compress pass of `mod.ts` returns the
grid unchanged: it is the identity function on such grids. -/
theorem C10_compress_identity (maskCols : List (List Bool)) (gridCols : List (List String))
    (hlen : List.Forall₂ (fun m col => m.length = col.length) maskCols gridCols)
    (hne : ∀ col ∈ gridCols, ∀ s ∈ col, s ≠ "") :
    compressColumns maskCols gridCols = gridCols := by
  induction hlen with
  | nil => rfl
  | @cons m col ms cols hmc htail ih =>
    have hrest : compressColumns ms cols = cols :=
      ih fun c hc s hs => hne c (List.mem_cons_of_mem _ hc) s hs
    have hcol : compressCol (m.zip col) = col := by
      rw [compressCol_eq_map]
      have hstep : (m.zip col).map (fun p => if p.1 then orBlank p.2 else p.2) =
          (m.zip col).map Prod.snd := by
        apply List.map_congr_left
        intro p hp
        have hmem : p.2 ∈ col := (List.of_mem_zip hp).2
        have hnee : p.2 ≠ "" := hne col (List.mem_cons_self _ _) p.2 hmem
        have hob : orBlank p.2 = p.2 := by rw [orBlank, if_neg hnee]
        rw [hob, ite_self]
      rw [hstep]
      exact List.map_snd_zip m col (Nat.le_of_eq hmc.symm)
    calc compressColumns (m :: ms) (col :: cols)
        = compressCol (m.zip col) :: compressColumns ms cols := by
          rw [compressColumns, compressColumns, List.zip_cons_cons, List.map_cons]
      _ = col :: cols := by rw [hcol, hrest]

/-- C10 witness: a concrete 2-cell column of non-empty strings is returned
unchanged by the compress pass. -/
theorem C10_witness : compressColumns [[true, true]] [["a", "b"]] = [["a", "b"]] :=
  C10_compress_identity [[true, true]] [["a", "b"]] (by simp) (by decide)

/-! ## C4: the stepped-wings mask -/

theorem countP_range_wings (C a b : Nat) (h : a + b ≤ C) :
    List.countP (fun c => decide (c < a) || decide (C - b ≤ c)) (List.range C) = a + b := by
  obtain ⟨m, hm⟩ : ∃ m, C = a + (m + b) := ⟨C - a - b, by omega⟩
  subst hm
  have hb : a + (m + b) - b = a + m := by omega
  rw [hb, List.range_add, List.countP_append, List.range_add, List.map_append,
    List.countP_append, List.countP_map, List.countP_map, List.countP_map]
  have p3 : List.countP (fun c => decide (c < a) || decide (a + m ≤ c))
      (List.range a) = (List.range a).length := by
    rw [List.countP_eq_length]
    intro c hc
    rw [List.mem_range] at hc
    simp only [Bool.or_eq_true, decide_eq_true_eq]
    omega
  have p1 : List.countP
      ((fun c => decide (c < a) || decide (a + m ≤ c)) ∘ fun x => a + x)
      (List.range m) = 0 := by
    rw [List.countP_eq_zero]
    intro c hc
    rw [List.mem_range] at hc
    simp only [Function.comp_apply, Bool.or_eq_true, decide_eq_true_eq]
    omega
  have p2 : List.countP
      (((fun c => decide (c < a) || decide (a + m ≤ c)) ∘ fun x => a + x) ∘ fun x => m + x)
      (List.range b) = (List.range b).length := by
    rw [List.countP_eq_length]
    intro c hc
    rw [List.mem_range] at hc
    simp only [Function.comp_apply, Bool.or_eq_true, decide_eq_true_eq]
    omega
  rw [p1, p2, p3, List.length_range, List.length_range]
  omega

theorem activeCount_createRowLayout (C l r : Nat) :
    activeCount (createRowLayout C l r) = min l C + min r (C - min l C) := by
  have h : min l C + min r (C - min l C) ≤ C := by omega
  simp only [activeCount, createRowLayout, List.countP_map]
  have hcomp : ((fun b => b) ∘ fun c =>
      decide (c < min l C) || decide (C - min r (C - min l C) ≤ c)) = fun c =>
      decide (c < min l C) || decide (C - min r (C - min l C) ≤ c) := rfl
  rw [hcomp]
  exact countP_range_wings C (min l C) (min r (C - min l C)) h

/-- C4 counterexample: at 3 rows and 3 columns the actual active-cell count of
mask row 2 is 3 (the left span is truncated to the row width), while the
claim's formula — a left count of 5 plus a right count clamped to
`max(0, columns - leftCount)` — predicts 5. -/
theorem C4_counterexample :
    activeCount ((buildLayout 3 3).getD 2 []) = 3 ∧ 5 + min 5 (3 - 5) = 5 := by
  decide

/-- C4 (amended): the mask is a pure function of `(rows, columns)`.  If
`rows < 3` every cell is active.  Otherwise rows 0, 1, 2 are built from the
nominal wing counts `2+2`, `2+4`, `5+5`, where the left count is clamped to
`min(leftCount, columns)` and the right count to
`min(rightCount, columns - left)` — equivalently `max(0, columns - leftCount)`
truncated by `rightCount` — so each step row has exactly `left + right`
active cells, the two spans never overlap nor exceed the row width, and all
rows from index 3 on are fully active. -/
theorem C4_mask_shape :
    (∀ numRows totalCols, numRows < 3 →
      buildLayout numRows totalCols = List.replicate numRows (List.replicate totalCols true)) ∧
    (∀ numRows totalCols, 3 ≤ numRows →
      (buildLayout numRows totalCols).getD 0 [] = createRowLayout totalCols 2 2 ∧
      (buildLayout numRows totalCols).getD 1 [] = createRowLayout totalCols 2 4 ∧
      (buildLayout numRows totalCols).getD 2 [] = createRowLayout totalCols 5 5 ∧
      ∀ r, 3 ≤ r → r < numRows →
        (buildLayout numRows totalCols).getD r [] = List.replicate totalCols true) ∧
    (∀ C l r, activeCount (createRowLayout C l r) = min l C + min r (C - min l C) ∧
      min l C + min r (C - min l C) ≤ C) := by
  refine ⟨?_, ?_, ?_⟩
  · intro nr tc h
    rw [buildLayout, if_pos h]
  · intro nr tc h
    rw [buildLayout, if_neg (by omega)]
    refine ⟨rfl, rfl, rfl, ?_⟩
    intro r h3 hlt
    obtain ⟨rr, rfl⟩ : ∃ rr, r = rr + 3 := ⟨r - 3, by omega⟩
    simp only [List.getD_cons_succ]
    exact getD_replicate _ _ _ _ (by omega)
  · intro C l r
    exact ⟨activeCount_createRowLayout C l r, by omega⟩

/-- C4 witness: a 2-row mask (fewer than 3 rows) is fully active. -/
theorem C4_witness :
    buildLayout 2 5 = [[true, true, true, true, true], [true, true, true, true, true]] := by
  rw [C4_mask_shape.1 2 5 (by omega)]
  decide

/-! ## C5: the column-major placer -/

theorem fillCells_length {T : Type} (items : List T) (dflt : T) :
    ∀ (actives : List Bool) (ptr : Nat),
      (fillCells items dflt actives ptr).1.length = actives.length := by
  intro actives
  induction actives with
  | nil => intro ptr; rfl
  | cons a rest ih =>
    intro ptr
    rw [fillCells]
    split
    · simp [ih]
    · simp [ih]

theorem fillCells_ptr {T : Type} (items : List T) (dflt : T) :
    ∀ (actives : List Bool) (ptr : Nat), ptr ≤ items.length →
      (fillCells items dflt actives ptr).2 =
        min (ptr + activeCount actives) items.length := by
  intro actives
  induction actives with
  | nil =>
    intro ptr hp
    simp only [fillCells, activeCount, List.countP_nil]
    omega
  | cons a rest ih =>
    intro ptr hp
    cases a with
    | true =>
      have hcnt : activeCount (true :: rest) = activeCount rest + 1 := by
        simp [activeCount, List.countP_cons]
      simp only [fillCells, eq_self_iff_true, if_true, hcnt]
      by_cases hlt : ptr < items.length
      · simp only [if_pos hlt]
        rw [ih (ptr + 1) (by omega)]
        omega
      · simp only [if_neg hlt]
        rw [ih ptr hp]
        omega
    | false =>
      have hcnt : activeCount (false :: rest) = activeCount rest := by
        simp [activeCount, List.countP_cons]
      simp only [fillCells, Bool.false_eq_true, if_false, hcnt]
      exact ih ptr hp

theorem fillCells_cell {T : Type} (items : List T) (dflt : T) :
    ∀ (actives : List Bool) (ptr rowIdx : Nat), ptr ≤ items.length →
      rowIdx < actives.length →
      (fillCells items dflt actives ptr).1.getD rowIdx dflt =
        if actives.getD rowIdx false then
          (if ptr + activeCount (actives.take rowIdx) < items.length then
            items.getD (ptr + activeCount (actives.take rowIdx)) dflt
          else dflt)
        else dflt := by
  intro actives
  induction actives with
  | nil =>
    intro ptr rowIdx hp hr
    simp at hr
  | cons a rest ih =>
    intro ptr rowIdx hp hr
    cases a with
    | true =>
      have hcnt : ∀ t : List Bool, activeCount (true :: t) = activeCount t + 1 := by
        intro t
        simp [activeCount, List.countP_cons]
      match rowIdx with
      | 0 =>
        simp only [fillCells, eq_self_iff_true, if_true, List.getD_cons_zero,
          List.take_zero, activeCount, List.countP_nil, Nat.add_zero]
      | rIdx + 1 =>
        simp only [fillCells, eq_self_iff_true, if_true, List.getD_cons_succ,
          List.take_succ_cons, hcnt]
        by_cases hlt : ptr < items.length
        · simp only [if_pos hlt]
          rw [ih (ptr + 1) rIdx (by omega) (by simpa using hr)]
          have heq : ptr + 1 + activeCount (List.take rIdx rest) =
              ptr + (activeCount (List.take rIdx rest) + 1) := by omega
          rw [heq]
        · simp only [if_neg hlt]
          rw [ih ptr rIdx hp (by simpa using hr)]
          have h1 : ¬ (ptr + activeCount (List.take rIdx rest) < items.length) := by
            omega
          have h2 : ¬ (ptr + (activeCount (List.take rIdx rest) + 1) < items.length) := by
            omega
          rw [if_neg h1, if_neg h2]
    | false =>
      have hcnt : ∀ t : List Bool, activeCount (false :: t) = activeCount t := by
        intro t
        simp [activeCount, List.countP_cons]
      match rowIdx with
      | 0 =>
        simp only [fillCells, Bool.false_eq_true, if_false, List.getD_cons_zero]
      | rIdx + 1 =>
        simp only [fillCells, Bool.false_eq_true, if_false, List.getD_cons_succ,
          List.take_succ_cons, hcnt]
        exact ih ptr rIdx hp (by simpa using hr)

theorem fillColsGo_getD {T : Type} (items : List T) (dflt : T) (layout : List (List Bool))
    (numRows : Nat) :
    ∀ (cs : List Nat) (ptr i : Nat), ptr ≤ items.length → i < cs.length →
      (fillColsGo items dflt layout numRows cs ptr).getD i [] =
        (fillCells items dflt (colMask layout numRows (cs.getD i 0))
          (min (ptr + ((cs.take i).map fun j => colActiveCount layout numRows j).sum)
            items.length)).1 := by
  intro cs
  induction cs with
  | nil =>
    intro ptr i hp hi
    simp at hi
  | cons c cs ih =>
    intro ptr i hp hi
    match i with
    | 0 =>
      rw [fillColsGo]
      simp only [List.getD_cons_zero, List.take_zero, List.map_nil, List.sum_nil,
        Nat.add_zero]
      rw [Nat.min_eq_left hp]
    | i + 1 =>
      rw [fillColsGo]
      simp only [List.getD_cons_succ, List.take_succ_cons, List.map_cons, List.sum_cons]
      have hptr2 : (fillCells items dflt (colMask layout numRows c) ptr).2 =
          min (ptr + colActiveCount layout numRows c) items.length :=
        fillCells_ptr items dflt _ ptr hp
      rw [ih _ i (by rw [hptr2]; omega) (by simpa using hi), hptr2]
      have heq : min (min (ptr + colActiveCount layout numRows c) items.length +
            ((cs.take i).map fun j => colActiveCount layout numRows j).sum) items.length =
          min (ptr + (colActiveCount layout numRows c +
            ((cs.take i).map fun j => colActiveCount layout numRows j).sum))
            items.length := by omega
      rw [heq]

/-- C5: the placer scans cells column-major (columns outer, rows inner).  The
cell at column `c`, row `r` of the filled grid is: the `k`-th item when the
cell is mask-active and its scan position `k` (the count of active cells
strictly before it in column-major order) is below the item count; the
default/filler value when the cell is active but the items are exhausted; and
the filler value when the cell is inactive, which the placement never
touches. -/
theorem C5_placer {T : Type} (items : List T) (dflt : T) (layout : List (List Bool))
    (totalCols numRows c r : Nat) (hc : c < totalCols) (hr : r < numRows) :
    ((fillGrid items layout totalCols numRows dflt).getD c []).getD r dflt =
      if layoutAt layout r c then
        (if scanIndex layout numRows c r < items.length then
          items.getD (scanIndex layout numRows c r) dflt
        else dflt)
      else dflt := by
  rw [fillGrid, fillColsGo_getD items dflt layout numRows (List.range totalCols) 0 c
    (Nat.zero_le _) (by simpa using hc)]
  rw [getD_range totalCols c hc, List.take_range, Nat.min_eq_left (Nat.le_of_lt hc)]
  have hrlen : r < (colMask layout numRows c).length := by
    simp [colMask, hr]
  rw [fillCells_cell items dflt _ _ r (Nat.min_le_right _ _) hrlen]
  have hmaskr : (colMask layout numRows c).getD r false = layoutAt layout r c := by
    rw [colMask, getD_map_range _ _ _ _ hr]
  rw [hmaskr, scanIndex]
  set base := ((List.range c).map fun j => colActiveCount layout numRows j).sum with hbase
  set k := activeCount ((colMask layout numRows c).take r) with hk
  rcases le_or_lt base items.length with hble | hbgt
  · rw [Nat.zero_add base, Nat.min_eq_left hble]
  · have hmin : min (0 + base) items.length = items.length := by omega
    rw [hmin]
    have h1 : ¬ (items.length + k < items.length) := by omega
    have h2 : ¬ (base + k < items.length) := by omega
    rw [if_neg h1, if_neg h2]

/-- C5 witness: a single active cell receives the single item. -/
theorem C5_witness : ((fillGrid [42] [[true]] 1 1 (0 : Nat)).getD 0 []).getD 0 0 = 42 := by
  rw [C5_placer [42] 0 [[true]] 1 1 0 0 (by omega) (by omega)]
  decide

/-! ## C6: the grouper -/

theorem perm_insertByKey {T K : Type} [LinearOrder K] (key : T → K) (x : T) (l : List T) :
    (insertByKey key x l).Perm (x :: l) := by
  induction l with
  | nil => exact List.Perm.refl _
  | cons y ys ih =>
    rw [insertByKey]
    split
    · exact List.Perm.refl _
    · exact (ih.cons y).trans (List.Perm.swap x y ys)

theorem perm_sortByKey {T K : Type} [LinearOrder K] (key : T → K) (l : List T) :
    (sortByKey key l).Perm l := by
  induction l with
  | nil => exact List.Perm.refl _
  | cons x xs ih =>
    rw [sortByKey]
    exact (perm_insertByKey key x _).trans (ih.cons x)

theorem sorted_insertByKey {T K : Type} [LinearOrder K] (key : T → K) (x : T) :
    ∀ l : List T, List.Pairwise (fun a b => key a ≤ key b) l →
      List.Pairwise (fun a b => key a ≤ key b) (insertByKey key x l) := by
  intro l
  induction l with
  | nil =>
    intro _
    exact List.pairwise_singleton _ _
  | cons y ys ih =>
    intro hp
    rcases List.pairwise_cons.mp hp with ⟨hy, hys⟩
    rw [insertByKey]
    split
    · rename_i hxy
      refine List.pairwise_cons.mpr ⟨?_, hp⟩
      intro b hb
      rcases List.mem_cons.mp hb with rfl | hbm
      · exact hxy
      · exact le_trans hxy (hy b hbm)
    · rename_i hxy
      refine List.pairwise_cons.mpr ⟨?_, ih hys⟩
      intro b hb
      have hb2 : b ∈ x :: ys := (perm_insertByKey key x ys).mem_iff.mp hb
      rcases List.mem_cons.mp hb2 with rfl | hbm
      · exact le_of_not_le hxy
      · exact hy b hbm

theorem sorted_sortByKey {T K : Type} [LinearOrder K] (key : T → K) (l : List T) :
    List.Pairwise (fun a b => key a ≤ key b) (sortByKey key l) := by
  induction l with
  | nil => simp [sortByKey]
  | cons x xs ih =>
    rw [sortByKey]
    exact sorted_insertByKey key x _ ih

theorem groupGo_key_eq {T K : Type} [DecidableEq K] (key : T → K) :
    ∀ (l : List T) (x : T), ∀ a ∈ (groupGo key x l).1, key a = key x := by
  intro l
  induction l with
  | nil =>
    intro x a ha
    simp only [groupGo, List.mem_singleton] at ha
    rw [ha]
  | cons y ys ih =>
    intro x a ha
    by_cases hk : key y = key x
    · simp only [groupGo, if_pos hk, List.mem_cons] at ha
      rcases ha with rfl | hmem
      · rfl
      · rw [ih y a hmem, hk]
    · simp only [groupGo, if_neg hk, List.mem_singleton] at ha
      rw [ha]

theorem groupGo_fst_eq_cons {T K : Type} [DecidableEq K] (key : T → K) (l : List T) (x : T) :
    ∃ t, (groupGo key x l).1 = x :: t := by
  cases l with
  | nil => exact ⟨[], rfl⟩
  | cons y ys =>
    by_cases hk : key y = key x
    · exact ⟨(groupGo key y ys).1, by simp [groupGo, if_pos hk]⟩
    · exact ⟨[], by simp [groupGo, if_neg hk]⟩

theorem groupGo_snd_ne_nil {T K : Type} [DecidableEq K] (key : T → K) :
    ∀ (l : List T) (x : T), ∀ g ∈ (groupGo key x l).2, g ≠ [] := by
  intro l
  induction l with
  | nil =>
    intro x g hg
    simp [groupGo] at hg
  | cons y ys ih =>
    intro x g hg
    by_cases hk : key y = key x
    · simp only [groupGo, if_pos hk] at hg
      exact ih y g hg
    · simp only [groupGo, if_neg hk, List.mem_cons] at hg
      rcases hg with rfl | hmem
      · obtain ⟨t, ht⟩ := groupGo_fst_eq_cons key ys y
        rw [ht]
        simp
      · exact ih y g hmem

theorem groupGo_flatten {T K : Type} [DecidableEq K] (key : T → K) :
    ∀ (l : List T) (x : T), (groupGo key x l).1 ++ (groupGo key x l).2.flatten = x :: l := by
  intro l
  induction l with
  | nil =>
    intro x
    simp [groupGo]
  | cons y ys ih =>
    intro x
    by_cases hk : key y = key x
    · simp only [groupGo, if_pos hk]
      rw [List.cons_append, ih y]
    · simp only [groupGo, if_neg hk, List.flatten_cons]
      rw [List.singleton_append, ih y]

theorem groupGo_snd_key_const {T K : Type} [DecidableEq K] (key : T → K) :
    ∀ (l : List T) (x : T), ∀ g ∈ (groupGo key x l).2, ∀ a ∈ g, ∀ b ∈ g, key a = key b := by
  intro l
  induction l with
  | nil =>
    intro x g hg
    simp [groupGo] at hg
  | cons y ys ih =>
    intro x g hg
    by_cases hk : key y = key x
    · simp only [groupGo, if_pos hk] at hg
      exact ih y g hg
    · simp only [groupGo, if_neg hk, List.mem_cons] at hg
      rcases hg with rfl | hmem
      · intro a ha b hb
        rw [groupGo_key_eq key ys y a ha, groupGo_key_eq key ys y b hb]
      · exact ih y g hmem

theorem groupGo_pairwise {T K : Type} [LinearOrder K] (key : T → K) :
    ∀ (l : List T) (x : T), List.Pairwise (fun a b => key a ≤ key b) (x :: l) →
      List.Pairwise (fun g g2 => ∀ a ∈ g, ∀ b ∈ g2, key a < key b)
        ((groupGo key x l).1 :: (groupGo key x l).2) := by
  intro l
  induction l with
  | nil =>
    intro x _
    simp only [groupGo]
    exact List.pairwise_singleton _ _
  | cons y ys ih =>
    intro x hp
    rcases List.pairwise_cons.mp hp with ⟨hx, hys⟩
    have ihy := ih y hys
    by_cases hk : key y = key x
    · simp only [groupGo, if_pos hk]
      rcases List.pairwise_cons.mp ihy with ⟨hr1, hr2⟩
      refine List.pairwise_cons.mpr ⟨?_, hr2⟩
      intro g hg a ha b hb
      have hay : key a = key y := by
        rcases List.mem_cons.mp ha with rfl | hmem
        · exact hk.symm
        · exact groupGo_key_eq key ys y a hmem
      obtain ⟨t, ht⟩ := groupGo_fst_eq_cons key ys y
      have hy_mem : y ∈ (groupGo key y ys).1 := by
        rw [ht]
        exact List.mem_cons_self _ _
      have hlt := hr1 g hg y hy_mem b hb
      rw [hay]
      exact hlt
    · simp only [groupGo, if_neg hk]
      refine List.pairwise_cons.mpr ⟨?_, ihy⟩
      intro g hg a ha b hb
      have hax : a = x := by simpa using ha
      subst hax
      have hbmem : b ∈ (groupGo key y ys).1 ++ (groupGo key y ys).2.flatten := by
        rcases List.mem_cons.mp hg with rfl | hg2
        · exact List.mem_append_left _ hb
        · exact List.mem_append_right _ (List.mem_flatten.mpr ⟨g, hg2, hb⟩)
      rw [groupGo_flatten key ys y] at hbmem
      have hyb : key y ≤ key b := by
        rcases List.mem_cons.mp hbmem with rfl | hbys
        · exact le_refl _
        · exact (List.pairwise_cons.mp hys).1 b hbys
      have hxy : key a ≤ key y := hx y (List.mem_cons_self _ _)
      have hxylt : key a < key y := lt_of_le_of_ne hxy (Ne.symm hk)
      exact lt_of_lt_of_le hxylt hyb

/-- C6: the grouper sorts by key and groups maximal runs of equal keys, so:
every output group is non-empty; the flattened groups are a permutation of
the input (union as a multiset equals the input); all members of a group have
equal keys; between an earlier and a later group every pair of members has
strictly ascending keys (so group order is ascending and no key spans two
groups); groups are pairwise disjoint; items with equal keys land in the same
group; and empty input yields zero groups. -/
theorem C6_grouper {T K : Type} [LinearOrder K] (key : T → K) (items : List T) :
    (∀ g ∈ sortAndGroupItems key items, g ≠ []) ∧
    (sortAndGroupItems key items).flatten.Perm items ∧
    (∀ g ∈ sortAndGroupItems key items, ∀ a ∈ g, ∀ b ∈ g, key a = key b) ∧
    List.Pairwise (fun g g2 => ∀ a ∈ g, ∀ b ∈ g2, key a < key b)
      (sortAndGroupItems key items) ∧
    List.Pairwise (fun g g2 => ∀ v, v ∈ g → v ∉ g2) (sortAndGroupItems key items) ∧
    (∀ g ∈ sortAndGroupItems key items, ∀ g2 ∈ sortAndGroupItems key items,
      ∀ a ∈ g, ∀ b ∈ g2, key a = key b → g = g2) ∧
    (items = [] → sortAndGroupItems key items = []) := by
  rcases hs : sortByKey key items with _ | ⟨x, xs⟩
  · have hperm := perm_sortByKey key items
    rw [hs] at hperm
    have hnil : items = [] := hperm.symm.eq_nil
    have hG : sortAndGroupItems key items = [] := by
      rw [sortAndGroupItems, hs]
    rw [hG, hnil]
    simp
  · have hsort : List.Pairwise (fun a b => key a ≤ key b) (x :: xs) := by
      have h2 := sorted_sortByKey key items
      rw [hs] at h2
      exact h2
    have hperm := perm_sortByKey key items
    rw [hs] at hperm
    have hG : sortAndGroupItems key items =
        (groupGo key x xs).1 :: (groupGo key x xs).2 := by
      rw [sortAndGroupItems, hs]
    have hpw := groupGo_pairwise key xs x hsort
    rw [hG]
    refine ⟨?_, ?_, ?_, hpw, ?_, ?_, ?_⟩
    · intro g hg
      rcases List.mem_cons.mp hg with rfl | hmem
      · obtain ⟨t, ht⟩ := groupGo_fst_eq_cons key xs x
        rw [ht]
        simp
      · exact groupGo_snd_ne_nil key xs x g hmem
    · rw [List.flatten_cons, groupGo_flatten key xs x]
      exact hperm
    · intro g hg a ha b hb
      rcases List.mem_cons.mp hg with rfl | hmem
      · rw [groupGo_key_eq key xs x a ha, groupGo_key_eq key xs x b hb]
      · exact groupGo_snd_key_const key xs x g hmem a ha b hb
    · exact hpw.imp fun hR v hv1 hv2 => lt_irrefl _ (hR v hv1 v hv2)
    · intro g hg g2 hg2 a ha b hb hkey
      by_contra hne
      have hpwS : List.Pairwise
          (fun g g2 => (∀ a ∈ g, ∀ b ∈ g2, key a < key b) ∨
            (∀ a ∈ g2, ∀ b ∈ g, key a < key b))
          ((groupGo key x xs).1 :: (groupGo key x xs).2) :=
        hpw.imp fun hR => Or.inl hR
      have hsym : Symmetric (fun (g g2 : List T) =>
          (∀ a ∈ g, ∀ b ∈ g2, key a < key b) ∨
            (∀ a ∈ g2, ∀ b ∈ g, key a < key b)) :=
        fun _ _ h2 => h2.elim Or.inr Or.inl
      rcases hpwS.forall hsym hg hg2 hne with h1 | h2
      · exact absurd hkey (ne_of_lt (h1 a ha b hb))
      · exact absurd hkey.symm (ne_of_lt (h2 b hb a ha))
    · intro h0
      rw [h0] at hs
      simp [sortByKey] at hs

/-- C6 witness: grouping the numbers `[2, 1, 1]` by themselves puts the two
copies of 1 in the first group and 2 in the second, and the disjointness part
of the grouper theorem applies to them. -/
theorem C6_witness : (1 : Nat) ∉ ([2] : List Nat) := by
  have h := (C6_grouper (T := Nat) (K := Nat) id [2, 1, 1]).2.2.2.2.1
  rw [(by decide : sortAndGroupItems (T := Nat) (K := Nat) id [2, 1, 1] = [[1, 1], [2]])] at h
  exact (List.pairwise_cons.mp h).1 [2] (by simp) 1 (by simp)

/-! ## C8: the trailing-filler trim -/

theorem minFrom_le : ∀ (l : List Nat) (acc : Option Nat) (m : Nat), minFrom acc l = some m →
    (∀ c ∈ l, m ≤ c) ∧ ∀ a, acc = some a → m ≤ a := by
  intro l
  induction l with
  | nil =>
    intro acc m h
    have h2 : acc = some m := h
    refine ⟨by simp, ?_⟩
    intro a ha
    rw [ha] at h2
    exact Nat.le_of_eq (Option.some.inj h2).symm
  | cons c cs ih =>
    intro acc m h
    cases acc with
    | none =>
      have h2 : minFrom (some c) cs = some m := h
      obtain ⟨h1, hacc⟩ := ih (some c) m h2
      have hmc : m ≤ c := hacc c rfl
      refine ⟨?_, ?_⟩
      · intro d hd
        rcases List.mem_cons.mp hd with rfl | hmem
        · exact hmc
        · exact h1 d hmem
      · intro a ha
        simp at ha
    | some a =>
      have h2 : minFrom (some (min a c)) cs = some m := h
      obtain ⟨h1, hacc⟩ := ih (some (min a c)) m h2
      have hmac : m ≤ min a c := hacc _ rfl
      refine ⟨?_, ?_⟩
      · intro d hd
        rcases List.mem_cons.mp hd with rfl | hmem
        · exact le_trans hmac (Nat.min_le_right a d)
        · exact h1 d hmem
      · intro b hb
        have hab : a = b := Option.some.inj hb
        rw [← hab]
        exact le_trans hmac (Nat.min_le_left a c)

theorem minFrom_mem : ∀ (l : List Nat) (acc : Option Nat) (m : Nat), minFrom acc l = some m →
    m ∈ l ∨ acc = some m := by
  intro l
  induction l with
  | nil =>
    intro acc m h
    exact Or.inr h
  | cons c cs ih =>
    intro acc m h
    cases acc with
    | none =>
      have h2 : minFrom (some c) cs = some m := h
      rcases ih _ m h2 with hmem | heq
      · exact Or.inl (List.mem_cons_of_mem _ hmem)
      · have hc : c = m := Option.some.inj heq
        exact Or.inl (hc ▸ List.mem_cons_self c cs)
    | some a =>
      have h2 : minFrom (some (min a c)) cs = some m := h
      rcases ih _ m h2 with hmem | heq
      · exact Or.inl (List.mem_cons_of_mem _ hmem)
      · have hmin : min a c = m := Option.some.inj heq
        rcases min_choice a c with hch | hch
        · refine Or.inr ?_
          rw [← hmin, hch]
        · refine Or.inl ?_
          have hcm : c = m := by rw [← hmin, hch]
          exact hcm ▸ List.mem_cons_self c cs

theorem mem_drop_trailing {T : Type} [DecidableEq T] (dflt : T) (row : List T) (m : Nat)
    (hm : m ≤ trailingFillerCount dflt row) :
    ∀ x ∈ row.drop (row.length - m), x = dflt := by
  intro x hx
  have hdrop : row.drop (row.length - m) = (List.take m row.reverse).reverse := by
    rw [List.take_reverse, List.reverse_reverse]
  rw [hdrop, List.mem_reverse] at hx
  have hm2 : m ≤ (List.takeWhile (fun y => decide (y = dflt)) row.reverse).length := hm
  have htake : List.take m row.reverse =
      List.take m (List.takeWhile (fun y => decide (y = dflt)) row.reverse) := by
    conv_lhs =>
      rw [← List.takeWhile_append_dropWhile (p := fun y => decide (y = dflt))
        (l := row.reverse)]
    rw [List.take_append_eq_append_take, Nat.sub_eq_zero_of_le hm2, List.take_zero,
      List.append_nil]
  rw [htake] at hx
  have hx2 : x ∈ List.takeWhile (fun y => decide (y = dflt)) row.reverse :=
    (List.take_sublist _ _).mem hx
  have hpx := List.mem_takeWhile_imp hx2
  simpa using hpx

/-- C8: the trim of `compressGrid` removes the same number of trailing cells
from every row, namely the minimum `low` over all rows of each row's count of
trailing filler cells; `low` is attained on some row, is at most each row's
trailing-filler count, and every removed cell equals the filler value, so no
real content is ever removed. -/
theorem C8_uniform_trim {T : Type} [DecidableEq T] (dflt : T) (grid : List (List T))
    (low : Nat) (hl : minFrom none (grid.map (trailingFillerCount dflt)) = some low) :
    compressGrid dflt grid = grid.map (fun row => row.take (row.length - low)) ∧
    (∀ row ∈ grid, low ≤ trailingFillerCount dflt row) ∧
    (∃ row ∈ grid, trailingFillerCount dflt row = low) ∧
    (∀ row ∈ grid, ∀ x ∈ row.drop (row.length - low), x = dflt) := by
  have hle : ∀ row ∈ grid, low ≤ trailingFillerCount dflt row := by
    intro row hrow
    exact (minFrom_le _ _ _ hl).1 _ (List.mem_map_of_mem _ hrow)
  refine ⟨?_, hle, ?_, ?_⟩
  · rw [compressGrid, hl]
  · rcases minFrom_mem _ _ _ hl with hmem | habs
    · rcases List.mem_map.mp hmem with ⟨row, hrow, heq⟩
      exact ⟨row, hrow, heq⟩
    · simp at habs
  · intro row hrow x hx
    exact mem_drop_trailing dflt row low (hle row hrow) x hx

/-- C8 witness: both rows of a concrete grid end in two filler cells, and the
trim removes exactly those two columns from each row. -/
theorem C8_witness : compressGrid "x" [["a", "x", "x"], ["b", "x", "x"]] = [["a"], ["b"]] := by
  rw [(C8_uniform_trim "x" [["a", "x", "x"], ["b", "x", "x"]] 2 (by decide)).1]
  decide

end Periodt
